import Mathlib

/-!
Verification of the LegalSimplify prototype core (`src/App.jsx`) against its
natural-language specification.

Strings are modelled as `List Char`.  JavaScript's locale-independent ASCII
case mapping is modelled by `Char.toLower`; JavaScript whitespace (the `\s`
class, also used by `String.trim`) is modelled by `jsWs`.  All definitions
are executable translations of the source functions.
-/

namespace LegalSimplify

/-- JavaScript whitespace (`\s` class / `String.prototype.trim`):
space, tab, LF, VT, FF, CR, NBSP, Ogham space, the U+2000–U+200A range,
line/paragraph separators, narrow NBSP, medium mathematical space,
ideographic space, and BOM. -/
def jsWs (c : Char) : Bool :=
  c == ' ' || c == '\t' || c == '\n' || c == '\r' ||
  c == Char.ofNat 11 || c == Char.ofNat 12 ||
  c == Char.ofNat 160 || c == Char.ofNat 5760 ||
  (decide (8192 ≤ c.toNat) && decide (c.toNat ≤ 8202)) ||
  c == Char.ofNat 8232 || c == Char.ofNat 8233 ||
  c == Char.ofNat 8239 || c == Char.ofNat 8287 ||
  c == Char.ofNat 12288 || c == Char.ofNat 65279

/-- Sentence-ending punctuation, the `[.!?]` lookbehind class of the
splitting regex in `splitSentences`. -/
def sentEnd (c : Char) : Bool := c == '.' || c == '!' || c == '?'

/-- The `[A-Z0-9"'()]` lookahead class of the splitting regex. -/
def boundChar (c : Char) : Bool :=
  (decide (65 ≤ c.toNat) && decide (c.toNat ≤ 90)) ||
  (decide (48 ≤ c.toNat) && decide (c.toNat ≤ 57)) ||
  c == Char.ofNat 34 || c == Char.ofNat 39 || c == '(' || c == ')'

/-- Does the accumulated (reversed) current piece end with sentence
punctuation?  This is the lookbehind test of the splitting regex. -/
def headPunct : List Char → Bool
  | [] => false
  | p :: _ => sentEnd p

/-- Is the first character after the whitespace run in the lookahead class? -/
def boundAfter : List Char → Bool
  | [] => false
  | d :: _ => boundChar d

/-- The `.replace(/\n/g, " ")` step of `splitSentences`. -/
def newlineToSpace (c : Char) : Char := if c == '\n' then ' ' else c

/-- `String.prototype.trim`, over the `jsWs` whitespace class. -/
def jsTrim (l : List Char) : List Char :=
  ((l.dropWhile jsWs).reverse.dropWhile jsWs).reverse

/-- Core of `text.split(/(?<=[.!?])\s+(?=[A-Z0-9"'()])/)`.

The regex splits the text at every maximal whitespace run that is preceded
by `.`, `!` or `?` and followed by a character of `[A-Z0-9"'()]` (a shorter
prefix of a run can never match, because the lookahead class contains no
whitespace, and a match cannot start inside a run, because the lookbehind
class contains no whitespace).  `skip` is true while the remaining
characters of an already-consumed separator run are being discarded;
`acc` holds the current piece in reverse. -/
def splitGo : Bool → List Char → List Char → List (List Char)
  | _, [], acc => [acc.reverse]
  | skip, c :: cs, acc =>
    if skip && jsWs c then splitGo true cs acc
    else if jsWs c && headPunct acc && boundAfter (cs.dropWhile jsWs) then
      acc.reverse :: splitGo true cs []
    else splitGo false cs (c :: acc)

/-- `splitSentences` from `App.jsx`: replace newlines with spaces, split at
sentence boundaries, trim each piece, and drop empty pieces. -/
def splitSentences (text : List Char) : List (List Char) :=
  ((splitGo false (text.map newlineToSpace) []).map jsTrim).filter
    (fun s => !s.isEmpty)

/-- Does `pat` occur as a contiguous substring of the second list?
Models JavaScript `String.prototype.includes` and single-literal regex
`test`. -/
def isSubstr (pat : List Char) : List Char → Bool
  | [] => pat.isEmpty
  | c :: cs => pat.isPrefixOf (c :: cs) || isSubstr pat cs

/-- `String.prototype.toLowerCase`, restricted to the ASCII case mapping
(all patterns and keywords in the source are ASCII). -/
def lowerStr (l : List Char) : List Char := l.map Char.toLower

/-- One token of a `LEGAL_MAP` regex alternative: a literal (stored
lowercase, matched case-insensitively) or `\s+` (a maximal nonempty
whitespace run; maximality is forced because every following literal
starts with a non-whitespace character). -/
inductive Tok where
  | lit : List Char → Tok
  | wsp : Tok
deriving DecidableEq

/-- Case-insensitive literal test at the start of `l`. -/
def ciHasAt (pat l : List Char) : Bool := pat.isPrefixOf (lowerStr l)

/-- Match one regex alternative (a token sequence) at the start of `l`,
returning the number of characters consumed. -/
def matchToks : List Tok → List Char → Option Nat
  | [], _ => some 0
  | Tok.lit p :: ts, l =>
    if ciHasAt p l then (matchToks ts (l.drop p.length)).map (· + p.length)
    else none
  | Tok.wsp :: ts, l =>
    let n := (l.takeWhile jsWs).length
    if n = 0 then none
    else (matchToks ts (l.drop n)).map (· + n)

/-- Match a rule (ordered alternatives, first success wins, as in regex
alternation) at the start of `l`. -/
def matchAlts (alts : List (List Tok)) (l : List Char) : Option Nat :=
  alts.findSome? (fun a => matchToks a l)

/-- Leftmost match of a rule in `l`: position and length, as found by a
left-to-right regex scan. -/
def findFrom (alts : List (List Tok)) : List Char → Option (Nat × Nat)
  | [] => none
  | c :: cs =>
    match matchAlts alts (c :: cs) with
    | some len => some (0, len)
    | none => (findFrom alts cs).map (fun pl => (pl.1 + 1, pl.2))

/-- One entry of `LEGAL_MAP`: a case-insensitive pattern (as ordered
alternatives of token sequences) and its plain-language explanation. -/
structure Rule where
  alts : List (List Tok)
  expl : List Char
deriving DecidableEq

/-- The text inserted after a match: a space, then the explanation in
parentheses (from the replacer `match => match + " (" + replacement + ")"`). -/
def gloss (r : Rule) : List Char := ' ' :: '(' :: (r.expl ++ [')'])

/-- `plain.replace(re, match => match + " (" + replacement + ")")` with a
non-global regex: annotate only the leftmost match, if any. -/
def applyRule (s : List Char) (r : Rule) : List Char :=
  match findFrom r.alts s with
  | none => s
  | some pl => s.take (pl.1 + pl.2) ++ gloss r ++ s.drop (pl.1 + pl.2)

/-- `/(force\s+majeure)/i`. -/
def ruleForceMajeure : Rule :=
  { alts := [[Tok.lit "force".toList, Tok.wsp, Tok.lit "majeure".toList]],
    expl := "unavoidable events (e.g., natural disaster)".toList }

/-- `/(indemnif(y|ies|ication))/i`: the shared stem plus the alternatives
in source order. -/
def ruleIndemnify : Rule :=
  { alts := [[Tok.lit "indemnify".toList], [Tok.lit "indemnifies".toList],
             [Tok.lit "indemnification".toList]],
    expl := "compensation if someone sues you".toList }

/-- `/(waiver)/i`. -/
def ruleWaiver : Rule :=
  { alts := [[Tok.lit "waiver".toList]],
    expl := "giving up a right intentionally".toList }

/-- `/(jurisdicti(on|onal))/i`. -/
def ruleJurisdiction : Rule :=
  { alts := [[Tok.lit "jurisdiction".toList], [Tok.lit "jurisdictional".toList]],
    expl := "which court\x27s rules apply".toList }

/-- `/(notwithstanding)/i`. -/
def ruleNotwithstanding : Rule :=
  { alts := [[Tok.lit "notwithstanding".toList]],
    expl := "despite the above".toList }

/-- `/(liabilit(y|ies))/i`. -/
def ruleLiability : Rule :=
  { alts := [[Tok.lit "liability".toList], [Tok.lit "liabilities".toList]],
    expl := "legal responsibility for harm".toList }

/-- `/(confidential(ity)?)/i`: the greedy optional group tries the long
alternative first. -/
def ruleConfidentiality : Rule :=
  { alts := [[Tok.lit "confidentiality".toList], [Tok.lit "confidential".toList]],
    expl := "kept private".toList }

/-- `/(termination)/i`. -/
def ruleTermination : Rule :=
  { alts := [[Tok.lit "termination".toList]],
    expl := "ending the agreement".toList }

/-- `LEGAL_MAP` from `App.jsx`, in source order. -/
def LEGAL_MAP : List Rule :=
  [ruleForceMajeure, ruleIndemnify, ruleWaiver, ruleJurisdiction,
   ruleNotwithstanding, ruleLiability, ruleConfidentiality, ruleTermination]

/-- The glossary-substitution pass applied to each selected sentence in
`heuristicsSummary` (the `LEGAL_MAP.forEach` loop over `plain`). -/
def annotate (s : List Char) : List Char := LEGAL_MAP.foldl applyRule s

/-- The fixed 15-term keyword list of `heuristicsSummary`. -/
def keywords : List (List Char) :=
  ["obligation".toList, "shall".toList, "must".toList, "liability".toList,
   "termination".toList, "confidential".toList, "indemnify".toList,
   "warranty".toList, "payment".toList, "fee".toList, "notice".toList,
   "force majeure".toList, "dispute".toList, "governing law".toList,
   "breach".toList]

/-- A scored sentence of `heuristicsSummary` (`{ sent, score, idx }`).
JavaScript numbers are modelled exactly by rationals: every score is a sum
of small integers and one subunit positional fraction. -/
structure Scored where
  sent : List Char
  score : ℚ
  idx : ℕ
deriving DecidableEq

/-- `Math.max` on two numbers, written as an executable conditional (the
lattice `max` on `ℚ` does not reduce in the kernel). -/
def jsMax (a b : ℚ) : ℚ := if a ≤ b then b else a

/-- The score computed for the sentence at index `i` of `N`, exactly as in
the source: `+3` per keyword contained in the lowercased sentence, `+1` for
length over 120, `+1` for length over 250, plus
`Math.max(0, 1 - i / Math.max(1, N))`. -/
def scoreOf (sent : List Char) (i N : ℕ) : ℚ :=
  let l := lowerStr sent
  let s0 : ℚ := keywords.foldl (fun sc k => if isSubstr k l then sc + 3 else sc) 0
  let s1 : ℚ := if sent.length > 120 then s0 + 1 else s0
  let s2 : ℚ := if sent.length > 250 then s1 + 1 else s1
  s2 + jsMax 0 (1 - (i : ℚ) / jsMax 1 (N : ℚ))

/-- `sents.map((sent, i) => ({ sent, score, idx: i }))`, carried out by
recursion with an explicit running index. -/
def scoreAux (N : ℕ) : ℕ → List (List Char) → List Scored
  | _, [] => []
  | i, s :: rest =>
    { sent := s, score := scoreOf s i N, idx := i } :: scoreAux N (i + 1) rest

/-- The scored-sentence list built by `heuristicsSummary` for a text. -/
def scoredOf (text : List Char) : List Scored :=
  scoreAux (splitSentences text).length 0 (splitSentences text)

/-- Insertion step of the descending sort: place `x` before the first
element whose score is at most `x`'s (so equal scores keep their original
relative order, as the ES2019+ stable `Array.prototype.sort` does with the
comparator `(a, b) => b.score - a.score`). -/
def insertDesc (x : Scored) : List Scored → List Scored
  | [] => [x]
  | y :: ys => if y.score ≤ x.score then x :: y :: ys else y :: insertDesc x ys

/-- `scored.sort((a, b) => b.score - a.score)`: stable descending sort. -/
def sortScored : List Scored → List Scored
  | [] => []
  | x :: xs => insertDesc x (sortScored xs)

/-- `heuristicsSummary` from `App.jsx`. -/
def heuristicsSummary (text : List Char) (maxPoints : ℕ) : List (List Char) :=
  let sents := splitSentences text
  if sents.isEmpty then []
  else
    let scored := scoreAux sents.length 0 sents
    let sorted := sortScored scored
    (sorted.take (min maxPoints scored.length)).map (fun x => annotate x.sent)

/-- `s.slice(0, 3).join(" ")`. -/
def joinSp (xs : List (List Char)) : List Char := List.intercalate [' '] xs

/-- `simpleChatAnswer` from `App.jsx`. -/
def simpleChatAnswer (question original : List Char)
    (summary : List (List Char)) : List Char :=
  let q := lowerStr question
  if (jsTrim q).isEmpty then
    "Please ask a question about the uploaded document.".toList
  else if isSubstr "terminate".toList q then
    let s := (splitSentences original).filter
      (fun s => isSubstr "terminate".toList (lowerStr s))
    let j := joinSp (s.take 3)
    if j.isEmpty then "No explicit termination clause found.".toList else j
  else if isSubstr "payment".toList q || isSubstr "fee".toList q then
    let s := (splitSentences original).filter
      (fun s => isSubstr "payment".toList (lowerStr s) ||
        isSubstr "fee".toList (lowerStr s) ||
        isSubstr "price".toList (lowerStr s))
    let j := joinSp (s.take 3)
    if j.isEmpty then "No payment clause found.".toList else j
  else if 0 < summary.length then joinSp (summary.take 2)
  else "No relevant answer found.".toList

/-- The fixed risk-keyword list of the `risks` memo in `App.jsx`. -/
def riskKeywords : List (List Char) :=
  ["indemnify".toList, "liability".toList, "penalt".toList,
   "breach".toList, "terminate".toList, "obligation".toList]

/-- The `risks` derivation from `App.jsx`: sentences containing a risk
keyword (case-insensitively), first six in document order. -/
def risks (text : List Char) : List (List Char) :=
  ((splitSentences text).filter
    (fun s => riskKeywords.any (fun k => isSubstr k (lowerStr s)))).take 6

/-- The spec wording of the score (§4.2 step 2): 3 times the number of
distinct keywords occurring in the sentence, plus the two length bonuses,
plus the positional bonus `max(0, 1 - i / max(1, N))`. -/
def specScore (sent : List Char) (i N : ℕ) : ℚ :=
  3 * ((keywords.filter (fun k => isSubstr k (lowerStr sent))).length : ℚ)
    + (if sent.length > 120 then 1 else 0)
    + (if sent.length > 250 then 1 else 0)
    + max 0 (1 - (i : ℚ) / max 1 (N : ℚ))

/-- The spec wording of the glossary consequence (§8), for a single rule:
if the sentence matches the rule at all, then the rule's explanation in
parentheses appears immediately after the first (leftmost) match. -/
def annotatedAtFirstMatch (r : Rule) (e : List Char) : Bool :=
  match findFrom r.alts e with
  | none => true
  | some pl => (gloss r).isPrefixOf (e.drop (pl.1 + pl.2))

/-! ### Helper lemmas -/

theorem jsMax_eq_max (a b : ℚ) : jsMax a b = max a b := by
  rw [jsMax, max_def]

theorem foldl_if_add3 (p : List Char → Bool) (l : List (List Char)) (a : ℚ) :
    l.foldl (fun sc k => if p k then sc + 3 else sc) a
      = a + 3 * ((l.filter p).length : ℚ) := by
  induction l generalizing a with
  | nil => simp
  | cons k rest ih =>
    by_cases h : p k
    · simp [h, ih, List.filter_cons]
      ring
    · simp [h, ih, List.filter_cons]

theorem scoreOf_eq_specScore (s : List Char) (i N : ℕ) :
    scoreOf s i N = specScore s i N := by
  simp only [scoreOf, specScore, foldl_if_add3, jsMax_eq_max]
  by_cases h1 : s.length > 120 <;> by_cases h2 : s.length > 250 <;>
    simp [h1, h2]

theorem length_scoreAux (N : ℕ) (l : List (List Char)) :
    ∀ i, (scoreAux N i l).length = l.length := by
  induction l with
  | nil => intro i; rfl
  | cons s rest ih => intro i; simp [scoreAux, ih]

theorem mem_scoreAux_sent (N : ℕ) (l : List (List Char)) :
    ∀ i x, x ∈ scoreAux N i l → x.sent ∈ l := by
  induction l with
  | nil => intro i x h; simp [scoreAux] at h
  | cons s rest ih =>
    intro i x h
    rcases List.mem_cons.mp h with h | h
    · subst h; exact List.mem_cons_self _ _
    · exact List.mem_cons_of_mem _ (ih _ x h)

theorem length_insertDesc (x : Scored) (l : List Scored) :
    (insertDesc x l).length = l.length + 1 := by
  induction l with
  | nil => rfl
  | cons y ys ih =>
    by_cases h : y.score ≤ x.score <;> simp [insertDesc, h, ih]

theorem length_sortScored (l : List Scored) :
    (sortScored l).length = l.length := by
  induction l with
  | nil => rfl
  | cons x xs ih => simp [sortScored, length_insertDesc, ih]

theorem perm_insertDesc (x : Scored) (l : List Scored) :
    List.Perm (insertDesc x l) (x :: l) := by
  induction l with
  | nil => exact List.Perm.refl _
  | cons y ys ih =>
    by_cases h : y.score ≤ x.score
    · simp [insertDesc, h]
    · simp only [insertDesc, if_neg h]
      exact (ih.cons y).trans (List.Perm.swap x y ys)

theorem perm_sortScored (l : List Scored) :
    List.Perm (sortScored l) l := by
  induction l with
  | nil => exact List.Perm.refl _
  | cons x xs ih => exact (perm_insertDesc x (sortScored xs)).trans (ih.cons x)

theorem mem_insertDesc {a x : Scored} {l : List Scored} :
    a ∈ insertDesc x l ↔ a = x ∨ a ∈ l :=
  (perm_insertDesc x l).mem_iff.trans List.mem_cons

theorem pairwise_insertDesc (x : Scored) (l : List Scored)
    (h : List.Pairwise (fun a b : Scored => b.score ≤ a.score) l) :
    List.Pairwise (fun a b : Scored => b.score ≤ a.score) (insertDesc x l) := by
  induction l with
  | nil => simp [insertDesc]
  | cons y ys ih =>
    rcases List.pairwise_cons.mp h with ⟨hy, hys⟩
    by_cases hc : y.score ≤ x.score
    · rw [insertDesc, if_pos hc]
      refine List.pairwise_cons.mpr ⟨?_, h⟩
      intro b hb
      rcases List.mem_cons.mp hb with rfl | hb
      · exact hc
      · exact le_trans (hy b hb) hc
    · rw [insertDesc, if_neg hc]
      refine List.pairwise_cons.mpr ⟨?_, ih hys⟩
      intro b hb
      rcases mem_insertDesc.mp hb with rfl | hb
      · exact le_of_lt (lt_of_not_le hc)
      · exact hy b hb

theorem pairwise_sortScored (l : List Scored) :
    List.Pairwise (fun a b : Scored => b.score ≤ a.score) (sortScored l) := by
  induction l with
  | nil => simp [sortScored]
  | cons x xs ih => exact pairwise_insertDesc x (sortScored xs) ih

theorem filter_nonWs_takeWhile (l : List Char) :
    (l.takeWhile jsWs).filter (fun c => !jsWs c) = [] := by
  rw [List.filter_eq_nil_iff]
  intro a ha
  simp [List.mem_takeWhile_imp ha]

theorem filter_nonWs_dropWhile (l : List Char) :
    (l.dropWhile jsWs).filter (fun c => !jsWs c)
      = l.filter (fun c => !jsWs c) := by
  conv_rhs => rw [← List.takeWhile_append_dropWhile (p := jsWs) (l := l)]
  rw [List.filter_append, filter_nonWs_takeWhile, List.nil_append]

theorem splitGo_flatten_filter (l : List Char) :
    ∀ (acc : List Char) (skip : Bool),
      ((splitGo skip l acc).flatten).filter (fun c => !jsWs c)
        = (acc.reverse ++ l).filter (fun c => !jsWs c) := by
  induction l with
  | nil => intro acc skip; simp [splitGo]
  | cons c cs ih =>
    intro acc skip
    rw [splitGo]
    by_cases h1 : skip && jsWs c
    · rw [if_pos h1, ih]
      have hc : jsWs c = true := by
        simp only [Bool.and_eq_true] at h1; exact h1.2
      simp [List.filter_append, List.filter_cons, hc]
    · rw [if_neg h1]
      by_cases h2 : jsWs c && headPunct acc && boundAfter (cs.dropWhile jsWs)
      · rw [if_pos h2]
        have hc : jsWs c = true := by
          simp only [Bool.and_eq_true] at h2; exact h2.1.1
        have hihnil := ih [] true
        rw [List.reverse_nil, List.nil_append] at hihnil
        rw [List.flatten_cons, List.filter_append, hihnil, List.filter_append,
          List.filter_cons]
        simp [hc]
      · rw [if_neg h2, ih]
        simp [List.filter_append, List.filter_cons, List.append_assoc]

theorem filter_nonWs_jsTrim (p : List Char) :
    (jsTrim p).filter (fun c => !jsWs c) = p.filter (fun c => !jsWs c) := by
  rw [jsTrim, List.filter_reverse, filter_nonWs_dropWhile, List.filter_reverse,
    filter_nonWs_dropWhile, List.reverse_reverse]

theorem filter_nonWs_pieces (pieces : List (List Char)) :
    ((((pieces.map jsTrim).filter (fun s => !s.isEmpty)).flatten).filter
        (fun c => !jsWs c))
      = (pieces.flatten).filter (fun c => !jsWs c) := by
  induction pieces with
  | nil => rfl
  | cons p ps ih =>
    by_cases h : (jsTrim p).isEmpty
    · have hnil : jsTrim p = [] := List.isEmpty_iff.mp h
      have hp : p.filter (fun c => !jsWs c) = [] := by
        rw [← filter_nonWs_jsTrim, hnil]; rfl
      simp [List.filter_cons, h, List.filter_append, ih, hp]
    · simp [List.filter_cons, h, List.filter_append, ih, filter_nonWs_jsTrim]

theorem filter_nonWs_map_newline (l : List Char) :
    (l.map newlineToSpace).filter (fun c => !jsWs c)
      = l.filter (fun c => !jsWs c) := by
  induction l with
  | nil => rfl
  | cons c cs ih =>
    by_cases h : c == '\n'
    · have hc : c = '\n' := by simpa using h
      subst hc
      have h1 : newlineToSpace '\n' = ' ' := rfl
      have h2 : (!jsWs ' ') = false := rfl
      have h3 : (!jsWs '\n') = false := rfl
      rw [List.map_cons, h1, List.filter_cons, List.filter_cons, h2, h3, ih,
        if_neg (by simp), if_neg (by simp)]
    · have hns : newlineToSpace c = c := by simp [newlineToSpace, h]
      rw [List.map_cons, hns, List.filter_cons, List.filter_cons, ih]

theorem splitSentences_flatten_filter (text : List Char) :
    ((splitSentences text).flatten).filter (fun c => !jsWs c)
      = text.filter (fun c => !jsWs c) := by
  rw [splitSentences, filter_nonWs_pieces, splitGo_flatten_filter,
    List.reverse_nil, List.nil_append, filter_nonWs_map_newline]

theorem mem_splitGo_mem (l : List Char) :
    ∀ (acc : List Char) (skip : Bool) (pc : List Char) (x : Char),
      pc ∈ splitGo skip l acc → x ∈ pc → x ∈ acc ∨ x ∈ l := by
  induction l with
  | nil =>
    intro acc skip pc x hpc hx
    rw [splitGo, List.mem_singleton] at hpc
    subst hpc
    exact Or.inl (List.mem_reverse.mp hx)
  | cons c cs ih =>
    intro acc skip pc x hpc hx
    rw [splitGo] at hpc
    by_cases h1 : skip && jsWs c
    · rw [if_pos h1] at hpc
      rcases ih acc true pc x hpc hx with h | h
      · exact Or.inl h
      · exact Or.inr (List.mem_cons_of_mem c h)
    · rw [if_neg h1] at hpc
      by_cases h2 : jsWs c && headPunct acc && boundAfter (cs.dropWhile jsWs)
      · rw [if_pos h2] at hpc
        rcases List.mem_cons.mp hpc with rfl | hpc
        · exact Or.inl (List.mem_reverse.mp hx)
        · rcases ih [] true pc x hpc hx with h | h
          · cases h
          · exact Or.inr (List.mem_cons_of_mem c h)
      · rw [if_neg h2] at hpc
        rcases ih (c :: acc) false pc x hpc hx with h | h
        · rcases List.mem_cons.mp h with heq | h
          · exact Or.inr (by rw [heq]; exact List.mem_cons_self _ _)
          · exact Or.inl h
        · exact Or.inr (List.mem_cons_of_mem c h)

theorem mem_jsTrim {x : Char} {l : List Char} (h : x ∈ jsTrim l) : x ∈ l := by
  rw [jsTrim] at h
  rw [List.mem_reverse] at h
  have h2 := (List.dropWhile_sublist jsWs).mem h
  rw [List.mem_reverse] at h2
  exact (List.dropWhile_sublist jsWs).mem h2

theorem dropWhile_dropWhile (p : Char → Bool) (l : List Char) :
    (l.dropWhile p).dropWhile p = l.dropWhile p := by
  induction l with
  | nil => rfl
  | cons c cs ih =>
    by_cases h : p c
    · rw [List.dropWhile_cons_of_pos h, ih]
    · rw [List.dropWhile_cons_of_neg h, List.dropWhile_cons_of_neg h]

theorem dropWhile_head_not (p : Char → Bool) (l : List Char) {c : Char}
    {t : List Char} (h : l.dropWhile p = c :: t) : p c = false := by
  induction l with
  | nil => simp at h
  | cons a as ih =>
    by_cases ha : p a
    · rw [List.dropWhile_cons_of_pos ha] at h; exact ih h
    · rw [List.dropWhile_cons_of_neg ha] at h
      cases h
      exact Bool.of_not_eq_true ha

theorem dropWhile_of_head_not (p : Char → Bool) (l : List Char)
    (h : ∀ c t, l = c :: t → p c = false) : l.dropWhile p = l := by
  cases l with
  | nil => rfl
  | cons c t => exact List.dropWhile_cons_of_neg (by simp [h c t rfl])

theorem jsTrim_idem (l : List Char) : jsTrim (jsTrim l) = jsTrim l := by
  simp only [jsTrim]
  set A := l.dropWhile jsWs with hA
  set C := A.reverse.dropWhile jsWs with hC
  have hCdrop : C.dropWhile jsWs = C := by rw [hC]; exact dropWhile_dropWhile _ _
  have hrevC : C.reverse.dropWhile jsWs = C.reverse := by
    cases hcr : C.reverse with
    | nil => rfl
    | cons c t =>
      have hheadq : C.getLast? = some c := by
        rw [← List.head?_reverse, hcr]; rfl
      have hlastA : A.reverse.getLast? = some c := by
        conv_lhs =>
          rw [← List.takeWhile_append_dropWhile (p := jsWs) (l := A.reverse)]
        rw [List.getLast?_append, ← hC, hheadq]
        rfl
      have hheadA : A.head? = some c := by
        rw [← List.getLast?_reverse, hlastA]
      obtain ⟨t2, hAcons⟩ : ∃ t2, A = c :: t2 := by
        cases hA2 : A with
        | nil => rw [hA2] at hheadA; simp at hheadA
        | cons b tb =>
          rw [hA2] at hheadA
          simp only [List.head?_cons, Option.some.injEq] at hheadA
          exact ⟨tb, by rw [hheadA]⟩
      have hldrop : l.dropWhile jsWs = c :: t2 := by rw [← hA]; exact hAcons
      have hws : jsWs c = false := dropWhile_head_not jsWs l hldrop
      exact List.dropWhile_cons_of_neg (by simp [hws])
  rw [hrevC, List.reverse_reverse, hCdrop]

theorem findFrom_some (alts : List (List Tok)) :
    ∀ (l : List Char) (p len : ℕ), findFrom alts l = some (p, len) →
      matchAlts alts (l.drop p) = some len ∧
      ∀ q, q < p → matchAlts alts (l.drop q) = none := by
  intro l
  induction l with
  | nil => intro p len h; simp [findFrom] at h
  | cons c cs ih =>
    intro p len h
    rw [findFrom] at h
    cases hm : matchAlts alts (c :: cs) with
    | some L =>
      rw [hm] at h
      obtain ⟨rfl, rfl⟩ : 0 = p ∧ L = len := by
        constructor <;> [exact congrArg Prod.fst (Option.some.inj h);
          exact congrArg Prod.snd (Option.some.inj h)]
      exact ⟨by simpa using hm, fun q hq => absurd hq (Nat.not_lt_zero q)⟩
    | none =>
      rw [hm] at h
      cases hf : findFrom alts cs with
      | none => rw [hf] at h; simp at h
      | some pl =>
        obtain ⟨p2, len2⟩ := pl
        rw [hf] at h
        simp only [Option.map_some', Option.some.injEq, Prod.mk.injEq] at h
        obtain ⟨hp, hlen⟩ := h
        subst hp
        subst hlen
        have ihh := ih p2 len2 hf
        refine ⟨by simpa [List.drop_succ_cons] using ihh.1, ?_⟩
        intro q hq
        cases q with
        | zero => simpa using hm
        | succ q2 =>
          have hq2 : q2 < p2 := by omega
          simpa [List.drop_succ_cons] using ihh.2 q2 hq2

/-! ### Claim theorems -/

/-- C1: for every text string and every integer k in [1,10],
`heuristicsSummary text k` returns exactly
`min k (number of sentences produced by splitSentences text)` summary
points. -/
theorem claim1_summary_length (text : List Char) (k : ℕ) (_h1 : 1 ≤ k)
    (_h2 : k ≤ 10) :
    (heuristicsSummary text k).length = min k (splitSentences text).length := by
  simp only [heuristicsSummary]
  by_cases h : (splitSentences text).isEmpty = true
  · rw [if_pos h, List.isEmpty_iff.mp h]
    simp
  · rw [if_neg h]
    simp only [List.length_map, List.length_take, length_sortScored,
      length_scoreAux]
    omega

/-- Witness for C1 at a concrete two-sentence text with k = 2. -/
theorem claim1_summary_length_witness :
    1 ≤ 2 ∧ 2 ≤ 10 ∧
      (heuristicsSummary "Hi there. Ok.".toList 2).length
        = min 2 (splitSentences "Hi there. Ok.".toList).length :=
  ⟨by decide, by decide,
    claim1_summary_length "Hi there. Ok.".toList 2 (by decide) (by decide)⟩

/-- C2: the score computed by `heuristicsSummary` for the sentence at index
i of N equals 3 times the number of distinct keywords of the fixed 15-term
list occurring case-insensitively in the sentence, plus 1 if its length
exceeds 120, plus 1 more if it exceeds 250, plus the positional bonus
`max 0 (1 - i / max 1 N)`; the scored sentences are ordered descending by
score (a permutation of the scored list) and the first
`min maxPoints N` are selected (then annotated). -/
theorem claim2_scoring_and_selection (text : List Char) (k : ℕ) :
    (∀ s i N, scoreOf s i N = specScore s i N) ∧
    List.Pairwise (fun a b : Scored => b.score ≤ a.score)
      (sortScored (scoredOf text)) ∧
    List.Perm (sortScored (scoredOf text)) (scoredOf text) ∧
    heuristicsSummary text k
      = ((sortScored (scoredOf text)).take (min k (scoredOf text).length)).map
          (fun x => annotate x.sent) := by
  refine ⟨scoreOf_eq_specScore, pairwise_sortScored _, perm_sortScored _, ?_⟩
  simp only [heuristicsSummary, scoredOf]
  by_cases h : (splitSentences text).isEmpty = true
  · rw [if_pos h, List.isEmpty_iff.mp h]
    simp [scoreAux, sortScored]
  · rw [if_neg h]

/-- C3 (amended): glossary substitution applies the eight rules in the
fixed source order; for each rule, only the leftmost case-insensitive match
of the current string has the explanation appended immediately after the
matched text with everything else unchanged; every summary element is the
sequential application of the eight rules to one of the sentences.  (The
original claim's final consequence — that every output element containing
a matched term has the explanation immediately after its first match — is
refuted by `claim3_glossary_counterexample`: a later rule may insert its
explanation inside an earlier rule's match.) -/
theorem claim3_glossary_rules :
    (∀ s, annotate s =
      applyRule (applyRule (applyRule (applyRule (applyRule (applyRule
        (applyRule (applyRule s ruleForceMajeure) ruleIndemnify) ruleWaiver)
        ruleJurisdiction) ruleNotwithstanding) ruleLiability)
        ruleConfidentiality) ruleTermination) ∧
    (∀ r s, findFrom r.alts s = none → applyRule s r = s) ∧
    (∀ r s p len, findFrom r.alts s = some (p, len) →
      applyRule s r = s.take (p + len) ++ gloss r ++ s.drop (p + len) ∧
      ∀ q, q < p → matchAlts r.alts (s.drop q) = none) ∧
    (∀ text k e, e ∈ heuristicsSummary text k →
      ∃ s, s ∈ splitSentences text ∧ e = annotate s) := by
  refine ⟨fun s => rfl, ?_, ?_, ?_⟩
  · intro r s h
    simp only [applyRule]
    rw [h]
  · intro r s p len h
    refine ⟨?_, (findFrom_some r.alts s p len h).2⟩
    simp only [applyRule]
    rw [h]
  · intro text k e he
    simp only [heuristicsSummary] at he
    by_cases h : (splitSentences text).isEmpty = true
    · rw [if_pos h] at he
      simp at he
    · rw [if_neg h] at he
      obtain ⟨x, hx, rfl⟩ := List.mem_map.mp he
      have hx2 := List.mem_of_mem_take hx
      have hx3 := (perm_sortScored _).mem_iff.mp hx2
      exact ⟨x.sent, mem_scoreAux_sent _ _ 0 x hx3, rfl⟩

/-- Witness for C3: the characterization applied to the indemnify rule on a
concrete sentence where it matches at position 8 with length 9. -/
theorem claim3_glossary_rules_witness :
    findFrom ruleIndemnify.alts "A shall indemnify B.".toList = some (8, 9) ∧
    applyRule "A shall indemnify B.".toList ruleIndemnify
      = "A shall indemnify B.".toList.take (8 + 9) ++ gloss ruleIndemnify
          ++ "A shall indemnify B.".toList.drop (8 + 9) :=
  ⟨by decide,
    (claim3_glossary_rules.2.2.1 ruleIndemnify "A shall indemnify B.".toList 8 9
      (by decide)).1⟩

/-- C3 counterexample: on the one-sentence text
"Terminationotwithstanding x notwithstanding y." the summary element
contains the glossary term "notwithstanding", but the explanation
"(despite the above)" does not immediately follow its first match (the
termination rule inserted its explanation inside the annotated
notwithstanding match, leaving a later unannotated occurrence as the first
match of the output). -/
theorem claim3_glossary_counterexample :
    heuristicsSummary "Terminationotwithstanding x notwithstanding y.".toList 1
      = ["Termination (ending the agreement)otwithstanding (despite the above) x notwithstanding y.".toList] ∧
    isSubstr "notwithstanding".toList
      (lowerStr "Termination (ending the agreement)otwithstanding (despite the above) x notwithstanding y.".toList)
      = true ∧
    annotatedAtFirstMatch ruleNotwithstanding
      "Termination (ending the agreement)otwithstanding (despite the above) x notwithstanding y.".toList
      = false := by
  with_unfolding_all decide

/-- C4 counterexample: the claim says this call returns the fixed
"No payment clause found." fallback, but the first sentence of the
document contains "fee", so the payment branch finds it and the fallback
is not returned. -/
theorem claim4_fee_counterexample :
    simpleChatAnswer "what is the fee?".toList
      "No fee is mentioned here. The weather is nice.".toList []
      ≠ "No payment clause found.".toList := by
  decide

/-- C4 (amended): `answer("what is the fee?", "No fee is mentioned here.
The weather is nice.", [])` returns "No fee is mentioned here.", the one
sentence matching the payment/fee/price filter. -/
theorem claim4_fee_answer :
    simpleChatAnswer "what is the fee?".toList
      "No fee is mentioned here. The weather is nice.".toList []
      = "No fee is mentioned here.".toList := by
  decide

/-- C5 counterexample: the whitespace-only text " " is non-empty, yet
`splitSentences` returns the empty sequence (the single all-whitespace
piece is trimmed to empty and discarded). -/
theorem claim5_split_counterexample :
    " ".toList ≠ ([] : List Char) ∧ splitSentences " ".toList = [] := by
  decide

/-- C5 (amended): for every text containing at least one non-whitespace
character, `splitSentences` returns a non-empty sequence of sentences
whose concatenation, ignoring whitespace, reconstructs the original
content with newlines replaced by spaces. -/
theorem claim5_split_reconstruction (text : List Char)
    (h : text.any (fun c => !jsWs c) = true) :
    splitSentences text ≠ [] ∧
    ((splitSentences text).flatten).filter (fun c => !jsWs c)
      = (text.map newlineToSpace).filter (fun c => !jsWs c) := by
  have key : ((splitSentences text).flatten).filter (fun c => !jsWs c)
      = (text.map newlineToSpace).filter (fun c => !jsWs c) := by
    rw [splitSentences_flatten_filter, filter_nonWs_map_newline]
  refine ⟨?_, key⟩
  intro hnil
  obtain ⟨c, hc, hcw⟩ := List.any_eq_true.mp h
  have hws : jsWs c = false := by simpa using hcw
  have hcn : (c == '\n') = false := by
    cases hb : c == '\n'
    · rfl
    · have hceq : c = '\n' := by simpa using hb
      rw [hceq] at hws
      simp [jsWs] at hws
  have hns : newlineToSpace c = c := by simp [newlineToSpace, hcn]
  have hmemf : c ∈ (text.map newlineToSpace).filter (fun c => !jsWs c) := by
    refine List.mem_filter.mpr ⟨?_, by simp [hws]⟩
    rw [← hns]
    exact List.mem_map_of_mem _ hc
  rw [← key, hnil] at hmemf
  simp at hmemf

/-- Witness for C5 at a concrete two-sentence text. -/
theorem claim5_split_reconstruction_witness :
    ("Hello. World.".toList.any (fun c => !jsWs c) = true) ∧
    (splitSentences "Hello. World.".toList ≠ [] ∧
      ((splitSentences "Hello. World.".toList).flatten).filter
          (fun c => !jsWs c)
        = ("Hello. World.".toList.map newlineToSpace).filter
            (fun c => !jsWs c)) :=
  ⟨by decide, claim5_split_reconstruction "Hello. World.".toList (by decide)⟩

/-- C6: `risks` returns at most 6 sentences, every returned sentence
contains one of the six risk keywords case-insensitively, and the result
is the prefix (first at most 6, in document order) of the filtered
sentence list. -/
theorem claim6_risks (text : List Char) :
    (risks text).length ≤ 6 ∧
    (∀ e, e ∈ risks text →
      riskKeywords.any (fun k => isSubstr k (lowerStr e)) = true) ∧
    risks text ++ (((splitSentences text).filter
        (fun s => riskKeywords.any (fun k => isSubstr k (lowerStr s)))).drop 6)
      = (splitSentences text).filter
          (fun s => riskKeywords.any (fun k => isSubstr k (lowerStr s))) := by
  refine ⟨List.length_take_le _ _, ?_, List.take_append_drop 6 _⟩
  intro e he
  simp only [risks] at he
  have h4 : e ∈ (splitSentences text).filter
      (fun s => riskKeywords.any (fun k => isSubstr k (lowerStr s))) :=
    List.mem_of_mem_take he
  exact (List.mem_filter.mp h4).2

/-- Witness for C6: a concrete risk sentence drawn from the result. -/
theorem claim6_risks_witness :
    riskKeywords.any
      (fun k => isSubstr k (lowerStr "We may terminate this.".toList)) = true :=
  (claim6_risks "We may terminate this. Fine.".toList).2.1
    "We may terminate this.".toList (by decide)

/-- C7: for text "A shall indemnify B. This is short." and maxPoints 1,
`heuristicsSummary` returns exactly the indemnify sentence annotated with
"(compensation if someone sues you)". -/
theorem claim7_indemnify_example :
    heuristicsSummary "A shall indemnify B. This is short.".toList 1
      = ["A shall indemnify (compensation if someone sues you) B.".toList] ∧
    isSubstr "indemnify".toList
      "A shall indemnify (compensation if someone sues you) B.".toList
      = true ∧
    isSubstr "(compensation if someone sues you)".toList
      "A shall indemnify (compensation if someone sues you) B.".toList
      = true := by
  with_unfolding_all decide

/-- C8: the core functions are total; on the empty document the summary
and risk lists are empty and the chat answer is one of the four fixed
messages for every non-empty question. -/
theorem claim8_totality :
    (∀ k, heuristicsSummary [] k = []) ∧ risks [] = [] ∧
    (∀ q, q ≠ [] → simpleChatAnswer q [] [] ∈
      ["Please ask a question about the uploaded document.".toList,
       "No explicit termination clause found.".toList,
       "No payment clause found.".toList,
       "No relevant answer found.".toList]) := by
  refine ⟨fun k => rfl, rfl, ?_⟩
  intro q hq
  simp only [simpleChatAnswer]
  by_cases h1 : ((jsTrim (lowerStr q)).isEmpty = true)
  · rw [if_pos h1]
    simp
  · rw [if_neg h1]
    by_cases h2 : (isSubstr "terminate".toList (lowerStr q) = true)
    · rw [if_pos h2]
      have hs : splitSentences ([] : List Char) = [] := rfl
      rw [hs]
      decide
    · rw [if_neg h2]
      by_cases h3 : ((isSubstr "payment".toList (lowerStr q)
          || isSubstr "fee".toList (lowerStr q)) = true)
      · rw [if_pos h3]
        have hs : splitSentences ([] : List Char) = [] := rfl
        rw [hs]
        decide
      · rw [if_neg h3]
        simp

/-- Witness for C8 at a concrete non-empty question. -/
theorem claim8_totality_witness :
    ("hello".toList ≠ ([] : List Char)) ∧
    simpleChatAnswer "hello".toList [] [] ∈
      ["Please ask a question about the uploaded document.".toList,
       "No explicit termination clause found.".toList,
       "No payment clause found.".toList,
       "No relevant answer found.".toList] :=
  ⟨by decide, claim8_totality.2.2 "hello".toList (by decide)⟩

/-- C9: every element of `splitSentences text` is non-empty, equals its
own whitespace-trimmed form, and contains no newline character. -/
theorem claim9_split_elements (text : List Char) :
    ∀ e, e ∈ splitSentences text → e ≠ [] ∧ jsTrim e = e ∧ '\n' ∉ e := by
  intro e he
  simp only [splitSentences] at he
  obtain ⟨hmem, hne⟩ := List.mem_filter.mp he
  obtain ⟨p, hp, rfl⟩ := List.mem_map.mp hmem
  refine ⟨?_, jsTrim_idem p, ?_⟩
  · intro hnil
    rw [hnil] at hne
    simp at hne
  · intro hmemn
    have hxp : '\n' ∈ p := mem_jsTrim hmemn
    rcases mem_splitGo_mem _ [] false p '\n' hp hxp with h | h
    · simp at h
    · obtain ⟨c, hc, hceq⟩ := List.mem_map.mp h
      by_cases hb : (c == '\n') = true
      · have : newlineToSpace c = ' ' := by simp [newlineToSpace, hb]
        rw [this] at hceq
        exact absurd hceq (by decide)
      · have : newlineToSpace c = c := by simp [newlineToSpace, hb]
        rw [this] at hceq
        rw [hceq] at hb
        simp at hb

/-- Witness for C9 at a concrete element of a concrete split. -/
theorem claim9_split_elements_witness :
    ("Hi there.".toList ∈ splitSentences "Hi there. Ok.".toList) ∧
    ("Hi there.".toList ≠ [] ∧
      jsTrim "Hi there.".toList = "Hi there.".toList ∧
      '\n' ∉ "Hi there.".toList) :=
  ⟨by decide,
    claim9_split_elements "Hi there. Ok.".toList "Hi there.".toList (by decide)⟩

/-- C10: when the lowercased question contains "terminate", the answer
depends only on the question and the original text, never on the current
summary. -/
theorem claim10_terminate_ignores_summary (question original : List Char)
    (s1 s2 : List (List Char))
    (h : isSubstr "terminate".toList (lowerStr question) = true) :
    simpleChatAnswer question original s1
      = simpleChatAnswer question original s2 := by
  simp only [simpleChatAnswer]
  by_cases h1 : ((jsTrim (lowerStr question)).isEmpty = true)
  · rw [if_pos h1, if_pos h1]
  · rw [if_neg h1, if_neg h1, if_pos h, if_pos h]

/-- Witness for C10 at a concrete terminate question and two different
summaries. -/
theorem claim10_terminate_ignores_summary_witness :
    isSubstr "terminate".toList (lowerStr "Can I terminate?".toList) = true ∧
    simpleChatAnswer "Can I terminate?".toList "A. B.".toList []
      = simpleChatAnswer "Can I terminate?".toList "A. B.".toList
          ["X.".toList] :=
  ⟨by decide,
    claim10_terminate_ignores_summary "Can I terminate?".toList "A. B.".toList
      [] ["X.".toList] (by decide)⟩

end LegalSimplify
